import Mathlib

set_option linter.unusedVariables false

/-!
Verification development for the pbixray-client repository.

The embedding models, from the TypeScript source:
- the `ClientSession` request/response correlation (id counter, pending map,
  background listener dispatch, `close`);
- the Anthropic model fallback in `runAnthropic` (session-level `failedModels`
  set, rotation list, recursion on not-found);
- the orchestration loop in `processQuery` (content-block processing, tool
  failure recovery, result preview truncation, 5-round safety cap);
- the hand-rolled streamable HTTP transport (endpoint auto-probe);
- `normalizeUrl` from `src/url.ts`, over `List Char` (JS strings as
  character sequences; URL queries/fragments and percent-encoding are not
  modelled, matching the inputs the code manipulates).
-/

namespace PbixClient

/-! ## Session manager (ClientSession in the unnamed transport module) -/

/-- An inbound JSON-RPC message: an optional correlation id (`none` models an
absent `id` field) and an uninterpreted payload (result or error body). -/
structure InMsg where
  id : Option Nat
  payload : String
deriving DecidableEq, Repr

/-- State of a `ClientSession`: `idCounter` (starts at 1), the pending map as
an association list from request id to caller token (ids are generated by the
counter, so keys are unique, matching the JS `Map`), and the transport flag. -/
structure Session where
  idCounter : Nat
  pending : List (Nat × Nat)
  transportOpen : Bool
deriving DecidableEq, Repr

namespace ClientSession

/-- Fresh session: `idCounter = 1`, no pending calls, transport open. -/
def init : Session := ⟨1, [], true⟩

/-- The send half of `call`: `const id = this.idCounter++` and
`this.pending.set(id, resolver)`. Returns the assigned id. -/
def call (s : Session) (caller : Nat) : Session × Nat :=
  ({ s with idCounter := s.idCounter + 1,
            pending := s.pending ++ [(s.idCounter, caller)] }, s.idCounter)

/-- Session state after `n` concurrent outbound calls by callers `0, …, n-1`. -/
def callsUpTo : Nat → Session
  | 0 => init
  | n + 1 => (call (callsUpTo n) n).1

/-- The ids assigned to callers `0, …, n-1`, in call order. -/
def assignedIds : Nat → List Nat
  | 0 => []
  | n + 1 => assignedIds n ++ [(call (callsUpTo n) n).2]

/-- One step of the background listener (`ensureListener`'s loop body): if the
inbound message carries an `id` matching a pending call, resolve that call
(second component: the delivery `(callerToken, message)`) and remove it from
the pending map; otherwise the message is dropped and the state unchanged. -/
def listenerStep (s : Session) (m : InMsg) : Session × Option (Nat × InMsg) :=
  match m.id with
  | none => (s, none)
  | some i =>
    match s.pending.find? (fun e => e.1 == i) with
    | some e => ({ s with pending := s.pending.filter (fun e2 => e2.1 != i) }, some (e.2, m))
    | none => (s, none)

/-- The listener consuming a list of inbound messages in arrival order,
collecting all deliveries made to waiting callers. -/
def processAll (s : Session) : List InMsg → Session × List (Nat × InMsg)
  | [] => (s, [])
  | m :: ms =>
    let p := listenerStep s m
    let q := processAll p.1 ms
    (q.1, p.2.toList ++ q.2)

/-- `close()` from the source: `await this.transport.close()` and nothing
else — the pending map is untouched and no rejection is delivered to any
waiter. The second component is the list of `(caller, errorName)` deliveries
made to waiters at close time: always empty, mirroring the code. -/
def close (s : Session) : Session × List (Nat × String) :=
  ({ s with transportOpen := false }, [])

/-- The messages delivered to caller `c` by a listener run. -/
def deliveredTo (c : Nat) (r : Session × List (Nat × InMsg)) : List InMsg :=
  (r.2.filter (fun d => d.1 == c)).map Prod.snd

end ClientSession

/-! ## Model gateway fallback (`runAnthropic` in `src/cli.ts`) -/

/-- Backend outcome for one `anthropic.messages.create` attempt: success, the
`not_found_error` condition, or any other error (rethrown unchanged). -/
inductive Outcome (ρ : Type) where
  | ok (r : ρ)
  | notFound
  | otherError (e : String)
deriving DecidableEq, Repr

/-- Result of `runAnthropic`: success, the `All candidate models unavailable`
throw (carrying the exhausted list in insertion order), another backend error
rethrown, or recursion fuel exhausted (never reached with the fuel used). -/
inductive RunResult (α ρ : Type) where
  | ok (r : ρ)
  | allUnavailable (failed : List α)
  | otherError (e : String)
  | outOfFuel
deriving DecidableEq, Repr

/-- `failedModels.add(model)`: a JS `Set` keeps insertion order and ignores
re-insertion. -/
def addModel [DecidableEq α] (failed : List α) (m : α) : List α :=
  if m ∈ failed then failed else failed ++ [m]

/-- Helper for `dedupFirst`: drop elements already seen. -/
def dedupFirstAux [DecidableEq α] (seen : List α) : List α → List α
  | [] => []
  | x :: xs => if x ∈ seen then dedupFirstAux seen xs else x :: dedupFirstAux (x :: seen) xs

/-- `arr.filter((m, i, arr) => arr.indexOf(m) === i)`: keep the first
occurrence of each element, preserving order. -/
def dedupFirst [DecidableEq α] (l : List α) : List α :=
  dedupFirstAux [] l

/-- `rotation.find(m => !failedModels.has(m))`. -/
def firstAvail [DecidableEq α] (failed : List α) : List α → Option α
  | [] => none
  | m :: rest => if m ∈ failed then firstAvail failed rest else some m

/-- The built-in fallback chain `DEFAULT_MODEL_CANDIDATES` from the source. -/
def DEFAULT_MODEL_CANDIDATES : List String :=
  ["claude-3-5-sonnet-20241022", "claude-sonnet-4-20250514", "claude-3-5-sonnet-latest"]

/-- `runAnthropic(messages, model, maxTokens)` with the conversation and token
count abstracted away (they do not influence the fallback control flow): try
the backend on `model`; on `not_found_error` add the model to the exhausted
set, rebuild the rotation `[model, ...DEFAULT_MODEL_CANDIDATES]` deduplicated,
and recurse on the first candidate not yet exhausted; if none remains, fail
with the exhausted list. Any other error is rethrown. Returns
`(result, exhausted set after the call, models attempted in order)`. -/
def runAnthropic [DecidableEq α] (backend : α → Outcome ρ) (defaults : List α) :
    Nat → α → List α → RunResult α ρ × List α × List α
  | 0, _, failed => (.outOfFuel, failed, [])
  | fuel + 1, model, failed =>
    match backend model with
    | .ok r => (.ok r, failed, [model])
    | .otherError e => (.otherError e, failed, [model])
    | .notFound =>
      let failed2 := addModel failed model
      match firstAvail failed2 (dedupFirst (model :: defaults)) with
      | some next =>
        let rec2 := runAnthropic backend defaults fuel next failed2
        (rec2.1, rec2.2.1, model :: rec2.2.2)
      | none => (.allUnavailable failed2, failed2, [model])

/-- One generate call of a query, entered at the chosen model with the
session's current exhausted set; the fuel bound exceeds the rotation length,
so it is never hit on the scenarios proved below. -/
def queryFallback [DecidableEq α] (backend : α → Outcome ρ) (defaults : List α)
    (chosen : α) (failed : List α) : RunResult α ρ × List α × List α :=
  runAnthropic backend defaults ((dedupFirst (chosen :: defaults)).length + 1) chosen failed

/-- Two successive queries of one interactive session: `failedModels` is
declared in `interactive` scope, outside `processQuery`, so the second query
starts from the exhausted set the first query left behind. -/
def twoQueries [DecidableEq α] (backend : α → Outcome ρ) (defaults : List α)
    (chosen : α) : (RunResult α ρ × List α × List α) × (RunResult α ρ × List α × List α) :=
  let q1 := queryFallback backend defaults chosen []
  let q2 := queryFallback backend defaults chosen q1.2.1
  (q1, q2)

/-- The interactive console loop body around `processQuery` (lines 211-222):
on success print the response, on error print `Error processing query: …`;
in both cases the loop continues (first component `true`). -/
def consoleLoopStep (res : Except String String) : Bool × String :=
  match res with
  | .ok resp => (true, "\n" ++ resp)
  | .error e => (true, "Error processing query: " ++ e)

/-- The message of the exhaustion throw:
`All candidate models unavailable: ${Array.from(failedModels).join(', ')}`. -/
def modelUnavailableMessage (failed : List String) : String :=
  "All candidate models unavailable: " ++ String.intercalate ", " failed

/-! ## Orchestration loop (`processQuery` in `src/cli.ts`) -/

/-- A content block of a model response; block types other than `text` and
`tool_use` are skipped by the loop. Tool arguments are kept in their
serialized form. -/
inductive ContentBlock where
  | text (s : String)
  | toolUse (name : String) (args : String)
  | otherBlock
deriving DecidableEq, Repr

/-- A conversation turn `\x7b role, content \x7d` with serialized content. -/
structure Turn where
  role : String
  content : String
deriving DecidableEq, Repr

/-- A tool call's `result.content`: a JS string, a non-string value (carried
as its JSON serialization), or null/undefined. -/
inductive ToolContent where
  | strContent (s : String)
  | jsonContent (s : String)
  | nullContent
deriving DecidableEq, Repr

/-- `JSON.stringify(result.content)` (string escaping inside the payload is
not modelled; no claim depends on it). -/
def jsonString : ToolContent → String
  | .strContent s => "\"" ++ s ++ "\""
  | .jsonContent s => s
  | .nullContent => ""

/-- `fullText`: the raw content if it is a string, else its JSON
serialization, else the empty string (lines 190-192). -/
def fullTextOf : ToolContent → String
  | .strContent s => s
  | .jsonContent s => s
  | .nullContent => ""

/-- Helper for `collapseWs`: replace each whitespace run by a single space;
the flag records whether the previous character was whitespace. -/
def collapseCore : Bool → List Char → List Char
  | _, [] => []
  | prevWs, c :: rest =>
    if c.isWhitespace then
      if prevWs then collapseCore true rest else ' ' :: collapseCore true rest
    else c :: collapseCore false rest

/-- `.trim()`: drop leading and trailing whitespace. -/
def trimWsChars (l : List Char) : List Char :=
  ((l.dropWhile Char.isWhitespace).reverse.dropWhile Char.isWhitespace).reverse

/-- `fullText.replace(/\s+/g, ' ').trim()`: collapse whitespace runs to a
single space and trim. -/
def collapseWs (s : String) : String :=
  String.mk (trimWsChars (collapseCore false s.data))

/-- `singleLine.length > 50 ? singleLine.slice(0, 50) + '...' : singleLine`
applied to the whitespace-collapsed text (lines 193-194). -/
def previewText (fullText : String) : String :=
  let singleLine := collapseWs fullText
  if singleLine.length > 50 then singleLine.take 50 ++ "..." else singleLine

/-- Query-scoped orchestration state: the Conversation and the output
accumulator `finalParts`. -/
structure OrchState where
  messages : List Turn
  finalParts : List String
deriving DecidableEq, Repr

/-- Whether a block is a `tool_use` block. -/
def isToolUse : ContentBlock → Bool
  | .toolUse _ _ => true
  | _ => false

/-- The inner `for (const c of response.content)` loop (lines 178-203):
text blocks are accumulated; each `tool_use` block appends a calling trace
line and invokes `client.callTool`; on success the serialized result is
pushed into the Conversation and a truncated preview line is appended; on
failure the two failure trace lines are appended and an error-describing
user turn is pushed. The boolean is the `usedTool` flag. -/
def processBlocks (callTool : String → String → Except String ToolContent) :
    List ContentBlock → OrchState → Bool → OrchState × Bool
  | [], st, used => (st, used)
  | .text s :: rest, st, used =>
    processBlocks callTool rest { st with finalParts := st.finalParts ++ [s] } used
  | .otherBlock :: rest, st, used => processBlocks callTool rest st used
  | .toolUse name args :: rest, st, used =>
    let st1 := { st with
      finalParts := st.finalParts ++ ["[Calling tool " ++ name ++ " args=" ++ args ++ "]"] }
    match callTool name args with
    | .ok content =>
      let st2 := { st1 with
        messages := st1.messages ++ [⟨"user", jsonString content⟩],
        finalParts := st1.finalParts ++
          ["[Tool " ++ name ++ " result: " ++ previewText (fullTextOf content) ++ "]"] }
      processBlocks callTool rest st2 true
    | .error e =>
      let st2 := { st1 with
        messages := st1.messages ++ [⟨"user", "Tool " ++ name ++ " error: " ++ e⟩],
        finalParts := st1.finalParts ++
          ["[Tool " ++ name ++ " failed: " ++ e ++ "]",
           "[Tool " ++ name ++ " error: " ++ e ++ "]"] }
      processBlocks callTool rest st2 true

/-- The `for (let safety = 0; safety < 5; safety++)` loop (lines 176-206),
entered with the response produced before the loop: process the current
response's blocks; if no tool was used, stop; otherwise regenerate from the
updated Conversation and continue with one fuel unit less. When fuel runs out
the freshly generated response is discarded unprocessed, exactly as in the
source. Returns the final state and the number of responses processed. -/
def orchLoop (gen : List Turn → Except String (List ContentBlock))
    (callTool : String → String → Except String ToolContent) :
    Nat → List ContentBlock → OrchState → Except String (OrchState × Nat)
  | 0, _, st => .ok (st, 0)
  | fuel + 1, resp, st =>
    let pr := processBlocks callTool resp st false
    if pr.2 then
      match gen pr.1.messages with
      | .ok resp2 => (orchLoop gen callTool fuel resp2 pr.1).map (fun q => (q.1, q.2 + 1))
      | .error e => .error e
    else .ok (pr.1, 1)

/-- `processQuery(query)` (lines 164-209), with `runAnthropic` abstracted as
`gen` (model id and token limit fixed for the query): seed the Conversation
with one user turn, generate, run the capped loop. Returns the final state
and the number of processed rounds. -/
def processQueryFull (gen : List Turn → Except String (List ContentBlock))
    (callTool : String → String → Except String ToolContent) (query : String) :
    Except String (OrchState × Nat) :=
  let st0 : OrchState := ⟨[⟨"user", query⟩], []⟩
  match gen st0.messages with
  | .error e => .error e
  | .ok resp0 => orchLoop gen callTool 5 resp0 st0

/-- `processQuery`'s return value: `finalParts.join('\n')`. -/
def processQuery (gen : List Turn → Except String (List ContentBlock))
    (callTool : String → String → Except String ToolContent) (query : String) :
    Except String String :=
  (processQueryFull gen callTool query).map (fun q => String.intercalate "\n" q.1.finalParts)

/-- The number of rounds a query processed, `none` on error. -/
def roundsOf (r : Except String (OrchState × Nat)) : Option Nat :=
  (r.toOption).map (fun q => q.2)

/-! ## Fallback streaming transport (`streamableHttpClient`) -/

/-- A fetch response: HTTP status, the `ok` flag, and the body (`none` models
a null body; otherwise the NDJSON lines the stream delivers). -/
structure FetchResp where
  status : Nat
  ok : Bool
  body : Option (List String)
deriving DecidableEq, Repr

/-- The fixed probe list from the source. -/
def probeCandidates : List (String × String) :=
  [("/read", "/write"), ("/stream/read", "/stream/write"), ("/events", "/send")]

/-- The probe loop (lines 141-151): try each candidate's read endpoint in
order; adopt the first whose response is `ok`; a thrown fetch is swallowed
and the next candidate tried. -/
def probeLoop (fetch : String → Option FetchResp) (base : String) :
    List (String × String) → Option ((String × String) × FetchResp)
  | [] => none
  | c :: cs =>
    match fetch (base ++ c.1) with
    | some pr => if pr.ok then some (c, pr) else probeLoop fetch base cs
    | none => probeLoop fetch base cs

/-- The stream opening logic (lines 139-151): fetch the primary read
endpoint (a rejected fetch here is not caught and aborts the iterator); on
status 404 run the probe loop and adopt the first successful candidate pair;
if no candidate succeeds, continue with the primary 404 response itself. -/
def streamSetup (fetch : String → Option FetchResp) (base readPath writePath : String) :
    Except String ((String × String) × FetchResp) :=
  match fetch (base ++ readPath) with
  | none => .error "network error on read endpoint"
  | some res =>
    if res.status = 404 then
      match probeLoop fetch base probeCandidates with
      | some cp => .ok cp
      | none => .ok ((readPath, writePath), res)
    else .ok ((readPath, writePath), res)

/-- The NDJSON reader (lines 153-179) over the adopted response's body,
abstracted to its line structure: blank lines are skipped and the rest are
yielded (JSON parse failures of individual lines are ignored by the source;
line content is kept abstract here). -/
def parseBodyLines (lines : List String) : List String :=
  lines.filter (fun l => l.trim != "")

/-- End-to-end streaming result: the setup, then
`if (!res.body) throw new Error('No response body for streaming')`, then the
lines yielded from the adopted body. -/
def streamRun (fetch : String → Option FetchResp) (base readPath writePath : String) :
    Except String (List String) :=
  match streamSetup fetch base readPath writePath with
  | .error e => .error e
  | .ok (_, res) =>
    match res.body with
    | none => .error "No response body for streaming"
    | some lines => .ok (parseBodyLines lines)

/-- A candidate all of whose fetches fail to be adopted: every response that
arrives (if any) is not `ok`. -/
def probeFails (fetch : String → Option FetchResp) (base : String)
    (c : String × String) : Prop :=
  ∀ pr, fetch (base ++ c.1) = some pr → pr.ok = false

/-! ## URL normalization (`normalizeUrl` in `src/url.ts`), over `List Char` -/

/-- `s.replace(/\/$/, '')`: remove one trailing slash. -/
def stripTrailingSlash (l : List Char) : List Char :=
  if l.getLast? = some '/' then l.dropLast else l

/-- A parsed URL: scheme, host, path (path empty or starting with `/`).
Queries, fragments, ports and credentials are not modelled. -/
structure ParsedUrl where
  scheme : List Char
  host : List Char
  path : List Char
deriving DecidableEq, Repr

/-- Split a character list at the first occurrence of `://`. -/
def schemeSepSplit : List Char → Option (List Char × List Char)
  | [] => none
  | c :: rest =>
    if (c :: rest).take 3 = [':', '/', '/'] then some ([], rest.drop 2)
    else (schemeSepSplit rest).map (fun p => (c :: p.1, p.2))

/-- `new URL(s)`: requires a `scheme://host` shape with nonempty scheme and
host; the path is everything from the first `/` after the host. A string with
no `://` (e.g. a bare word) fails to parse, as the JS constructor throws. -/
def parseUrl (s : List Char) : Option ParsedUrl :=
  match schemeSepSplit s with
  | none => none
  | some p =>
    if p.1 = [] then none
    else
      let host := p.2.takeWhile (fun c => c != '/')
      let path := p.2.dropWhile (fun c => c != '/')
      if host = [] then none else some ⟨p.1, host, path⟩

/-- Helper for `collapseSlashes`: the flag records whether the previously
emitted character was a slash (in which case further slashes of the same run
are skipped). -/
def collapseAux : Bool → List Char → List Char
  | _, [] => []
  | prevSlash, c :: rest =>
    if c = '/' then
      if prevSlash then collapseAux true rest
      else '/' :: collapseAux true rest
    else c :: collapseAux false rest

/-- `.replace(/\/+/g, '/')`: collapse every run of slashes to one slash. -/
def collapseSlashes (l : List Char) : List Char :=
  collapseAux false l

/-- `url.toString()` for the modelled components. -/
def urlToString (u : ParsedUrl) : List Char :=
  u.scheme ++ ':' :: '/' :: '/' :: (u.host ++ u.path)

/-- No two adjacent slashes. -/
def NoDS (l : List Char) : Prop :=
  l.Chain' (fun a b => ¬(a = '/' ∧ b = '/'))

/-- Boolean check for `NoDS`, used for its executable decidability. -/
def noDSb : List Char → Bool
  | a :: b :: t => (!(decide (a = '/') && decide (b = '/'))) && noDSb (b :: t)
  | _ => true

instance instDecidableNoDS (l : List Char) : Decidable (NoDS l) :=
  decidable_of_iff (noDSb l = true) (by
    induction l with
    | nil => simp [noDSb, NoDS]
    | cons a rest ih =>
      cases rest with
      | nil => simp [noDSb, NoDS]
      | cons b t =>
        rw [noDSb, NoDS, List.chain'_cons]
        rw [NoDS] at ih
        rw [← ih]
        simp only [Bool.and_eq_true, Bool.not_eq_true', Bool.and_eq_false_iff,
          decide_eq_true_eq, decide_eq_false_iff_not]
        constructor
        · rintro ⟨h1, h2⟩
          refine ⟨fun hcon => ?_, h2⟩
          rcases h1 with h | h
          · exact h hcon.1
          · exact h hcon.2
        · rintro ⟨h1, h2⟩
          refine ⟨?_, h2⟩
          by_cases ha : a = '/'
          · right; intro hb; exact h1 ⟨ha, hb⟩
          · left; exact ha)

/-- Lines 3-5 of `normalizeUrl`: ensure the mount path has a leading slash,
then remove its trailing slash unless it is the root path `/`. -/
def mountNorm (mountPath : List Char) : List Char :=
  if (if mountPath.take 1 = ['/'] then mountPath else '/' :: mountPath) = ['/'] then ['/']
  else stripTrailingSlash (if mountPath.take 1 = ['/'] then mountPath else '/' :: mountPath)

/-- `normalizeUrl(baseUrl, mountPath)` from `src/url.ts`, step for step:
trim the base's trailing slash; normalize the mount path (`mountNorm`); if
the base parses as a URL, return it unchanged when its trimmed path equals or
ends with the mount path, otherwise append the mount path with slash runs
collapsed; if the base does not parse, concatenate. -/
def normalizeUrl (baseUrl mountPath : List Char) : List Char :=
  let trimmedBase := stripTrailingSlash baseUrl
  let mp := mountNorm mountPath
  match parseUrl trimmedBase with
  | some parsed =>
    let currentPath := stripTrailingSlash parsed.path
    if currentPath = mp then trimmedBase
    else if mp <:+ currentPath then trimmedBase
    else stripTrailingSlash (urlToString { parsed with path := collapseSlashes (currentPath ++ mp) })
  | none => trimmedBase ++ mp

/-! ## Theorems: session manager (C1, C2) -/

namespace ClientSession

theorem callsUpTo_spec (n : Nat) :
    (callsUpTo n).idCounter = n + 1 ∧
    (callsUpTo n).pending = (List.range n).map (fun k => (k + 1, k)) := by
  induction n with
  | zero => exact ⟨rfl, rfl⟩
  | succ n ih =>
    refine ⟨?_, ?_⟩
    · simp [callsUpTo, call, ih.1]
    · simp [callsUpTo, call, ih.1, ih.2, List.range_succ]

theorem assignedIds_spec (n : Nat) :
    assignedIds n = (List.range n).map (fun k => k + 1) := by
  induction n with
  | zero => rfl
  | succ n ih =>
    simp [assignedIds, call, ih, (callsUpTo_spec n).1, List.range_succ]

theorem find?_pending {l : List (Nat × Nat)} {i c : Nat}
    (hnd : (l.map Prod.fst).Nodup) (hm : (i, c) ∈ l) :
    l.find? (fun e => e.1 == i) = some (i, c) := by
  induction l with
  | nil => simp at hm
  | cons e l ih =>
    rw [List.map_cons, List.nodup_cons] at hnd
    rcases List.mem_cons.mp hm with h | h
    · rw [← h]
      exact List.find?_cons_of_pos _ (by simp)
    · have hne : e.1 ≠ i := by
        intro heq
        exact hnd.1 (heq ▸ List.mem_map.mpr ⟨(i, c), h, rfl⟩)
      rw [List.find?_cons_of_neg _ (by simp [hne])]
      exact ih hnd.2 h

theorem snd_unique {l : List (Nat × Nat)} (h : (l.map Prod.snd).Nodup)
    {a b c : Nat} (ha : (a, c) ∈ l) (hb : (b, c) ∈ l) : a = b := by
  induction l with
  | nil => simp at ha
  | cons e l ih =>
    rw [List.map_cons, List.nodup_cons] at h
    rcases List.mem_cons.mp ha with h1 | h1 <;> rcases List.mem_cons.mp hb with h2 | h2
    · exact congrArg Prod.fst (h1.trans h2.symm)
    · exfalso
      exact h.1 (by rw [← h1]; exact List.mem_map.mpr ⟨(b, c), h2, rfl⟩)
    · exfalso
      exact h.1 (by rw [← h2]; exact List.mem_map.mpr ⟨(a, c), h1, rfl⟩)
    · exact ih h.2 h1 h2

theorem processAll_not_caller (msgs : List InMsg) : ∀ (s : Session) (c : Nat),
    c ∉ s.pending.map Prod.snd →
    (processAll s msgs).2.filter (fun d => d.1 == c) = [] := by
  induction msgs with
  | nil => intro s c _; rfl
  | cons m ms ih =>
    intro s c h
    cases hid : m.id with
    | none =>
      simp only [processAll, listenerStep, hid, Option.toList_none, List.nil_append]
      exact ih s c h
    | some i =>
      cases hf : s.pending.find? (fun e => e.1 == i) with
      | none =>
        simp only [processAll, listenerStep, hid, hf, Option.toList_none, List.nil_append]
        exact ih s c h
      | some e =>
        have he : e ∈ s.pending := List.mem_of_find?_eq_some hf
        have h2 : e.2 ≠ c := fun hc => h (List.mem_map.mpr ⟨e, he, hc⟩)
        have h3 : c ∉ (s.pending.filter (fun e2 => e2.1 != i)).map Prod.snd := by
          intro hc
          rcases List.mem_map.mp hc with ⟨e2, he2, he2c⟩
          exact h (List.mem_map.mpr ⟨e2, (List.filter_sublist _).mem he2, he2c⟩)
        simp only [processAll, listenerStep, hid, hf, Option.toList_some,
          List.singleton_append, List.filter_cons]
        have hpe : ((e.2, m).1 == c) = false := by simp [h2]
        rw [hpe]
        simp only [Bool.false_eq_true, if_false]
        exact ih _ c h3

theorem processAll_deliveredTo (msgs : List InMsg) : ∀ (s : Session) (i c : Nat),
    (s.pending.map Prod.fst).Nodup →
    (s.pending.map Prod.snd).Nodup →
    (i, c) ∈ s.pending →
    deliveredTo c (processAll s msgs) = (msgs.find? (fun m => m.id == some i)).toList := by
  induction msgs with
  | nil => intro s i c _ _ _; rfl
  | cons m ms ih =>
    intro s i c hk hc hm
    cases hid : m.id with
    | none =>
      rw [List.find?_cons_of_neg _ (by simp [hid])]
      simp only [deliveredTo, processAll, listenerStep, hid, Option.toList_none,
        List.nil_append]
      exact ih s i c hk hc hm
    | some j =>
      by_cases hji : j = i
      · subst hji
        have hf : s.pending.find? (fun e => e.1 == j) = some (j, c) := find?_pending hk hm
        have h3 : c ∉ (s.pending.filter (fun e2 => e2.1 != j)).map Prod.snd := by
          intro hcc
          rcases List.mem_map.mp hcc with ⟨e2, he2, he2c⟩
          have he2p := (List.filter_sublist _).mem he2
          have he2j : e2.1 ≠ j := by
            have := List.of_mem_filter he2
            simpa using this
          have hp2 : (e2.1, c) ∈ s.pending := by rw [← he2c]; exact he2p
          exact he2j (snd_unique hc hp2 hm)
        have hrest := processAll_not_caller ms
          ⟨s.idCounter, s.pending.filter (fun e2 => e2.1 != j), s.transportOpen⟩ c h3
        rw [List.find?_cons_of_pos _ (by simp [hid])]
        simp only [deliveredTo, processAll, listenerStep, hid, hf, Option.toList_some,
          List.singleton_append, List.filter_cons]
        simp only [beq_self_eq_true, if_true, List.map_cons, Option.toList_some]
        simp only [deliveredTo] at hrest ⊢
        rw [hrest]
        rfl
      · rw [List.find?_cons_of_neg _ (by simp [hid, hji])]
        cases hf : s.pending.find? (fun e => e.1 == j) with
        | none =>
          simp only [deliveredTo, processAll, listenerStep, hid, hf, Option.toList_none,
            List.nil_append]
          exact ih s i c hk hc hm
        | some e =>
          have he : e ∈ s.pending := List.mem_of_find?_eq_some hf
          have hej : e.1 = j := by
            have := List.find?_some hf
            simpa using this
          have h2 : e.2 ≠ c := by
            intro hcc
            have hp2 : (e.1, c) ∈ s.pending := by rw [← hcc]; exact he
            exact hji (hej ▸ snd_unique hc hp2 hm)
          have hmem2 : (i, c) ∈ s.pending.filter (fun e2 => e2.1 != j) :=
            List.mem_filter.mpr ⟨hm, by simp [Ne.symm hji]⟩
          have hsub := @List.filter_sublist (Nat × Nat) (fun e2 => e2.1 != j) s.pending
          have hrec := ih ⟨s.idCounter, s.pending.filter (fun e2 => e2.1 != j), s.transportOpen⟩
            i c ((hsub.map Prod.fst).nodup hk) ((hsub.map Prod.snd).nodup hc) hmem2
          simp only [deliveredTo, processAll, listenerStep, hid, hf, Option.toList_some,
            List.singleton_append, List.filter_cons]
          have hpe : ((e.2, m).1 == c) = false := by simp [h2]
          rw [hpe]
          simp only [Bool.false_eq_true, if_false]
          simp only [deliveredTo] at hrec
          exact hrec

/-- The canonical response list for `n` calls: one response per assigned id,
with payload `p k` for the call of caller `k`. -/
def canonicalResponses (n : Nat) (p : Nat → String) : List InMsg :=
  (List.range n).map (fun k => ⟨some (k + 1), p k⟩)

theorem find?_perm_canonical {n k : Nat} {p : Nat → String} {msgs : List InMsg}
    (hperm : msgs.Perm (canonicalResponses n p)) (hk : k < n) :
    msgs.find? (fun m => m.id == some (k + 1)) = some ⟨some (k + 1), p k⟩ := by
  cases hfind : msgs.find? (fun m => m.id == some (k + 1)) with
  | none =>
    exfalso
    have hmem : (⟨some (k + 1), p k⟩ : InMsg) ∈ msgs :=
      hperm.mem_iff.mpr (List.mem_map.mpr ⟨k, List.mem_range.mpr hk, rfl⟩)
    exact (List.find?_eq_none.mp hfind _ hmem) (by simp)
  | some x =>
    have hx := List.find?_some hfind
    have hxm : x ∈ canonicalResponses n p :=
      hperm.mem_iff.mp (List.mem_of_find?_eq_some hfind)
    rcases List.mem_map.mp hxm with ⟨j, _, hj⟩
    have hxi : x.id = some (k + 1) := by simpa using hx
    have : j + 1 = k + 1 := by
      rw [← hj] at hxi
      simpa using hxi
    rw [← hj, Nat.succ_injective this]

end ClientSession

/-- Claim C1: for every sequence of N concurrent outbound calls through the
session manager, a unique monotonically increasing id is assigned per
outbound request (the ids are `1, …, N`, strictly increasing in call order);
whatever the arrival order of the responses on the inbound stream, each call
receives exactly the response whose id matches its request (and nothing
else); and inbound messages with an absent id, or an id matching no pending
call, are dropped without any state change. -/
theorem C1_session_correlation (n : Nat) (p : Nat → String) (msgs : List InMsg)
    (hperm : msgs.Perm (ClientSession.canonicalResponses n p)) :
    (ClientSession.assignedIds n = (List.range n).map (fun k => k + 1) ∧
      (ClientSession.assignedIds n).Pairwise (· < ·)) ∧
    (∀ k, k < n →
      ClientSession.deliveredTo k
          (ClientSession.processAll (ClientSession.callsUpTo n) msgs) =
        [⟨some (k + 1), p k⟩]) ∧
    (∀ s m, m.id = none → ClientSession.listenerStep s m = (s, none)) ∧
    (∀ s m i, m.id = some i → i ∉ s.pending.map Prod.fst →
      ClientSession.listenerStep s m = (s, none)) := by
  refine ⟨⟨ClientSession.assignedIds_spec n, ?_⟩, ?_, ?_, ?_⟩
  · rw [ClientSession.assignedIds_spec n]
    rw [List.pairwise_map]
    exact (List.pairwise_lt_range n).imp (fun h => Nat.succ_lt_succ h)
  · intro k hk
    have hpend := (ClientSession.callsUpTo_spec n).2
    have hkmem : (k + 1, k) ∈ (ClientSession.callsUpTo n).pending := by
      rw [hpend]; exact List.mem_map.mpr ⟨k, List.mem_range.mpr hk, rfl⟩
    have hknd : ((ClientSession.callsUpTo n).pending.map Prod.fst).Nodup := by
      rw [hpend, List.map_map]
      exact (List.nodup_range n).map (fun a b h => by simpa using h)
    have hcnd : ((ClientSession.callsUpTo n).pending.map Prod.snd).Nodup := by
      rw [hpend, List.map_map]
      exact (List.nodup_range n).map (fun a b h => by simpa using h)
    rw [ClientSession.processAll_deliveredTo msgs _ (k + 1) k hknd hcnd hkmem,
      ClientSession.find?_perm_canonical hperm hk]
    rfl
  · intro s m hid
    simp [ClientSession.listenerStep, hid]
  · intro s m i hid hnm
    have hf : s.pending.find? (fun e => e.1 == i) = none := by
      rw [List.find?_eq_none]
      intro e he hpe
      exact hnm (List.mem_map.mpr ⟨e, he, by simpa using hpe⟩)
    simp [ClientSession.listenerStep, hid, hf]

/-- Witness for C1 at `n = 2` with the two responses arriving in reverse
order: caller 0 still receives exactly the response with id 1. -/
theorem C1_session_correlation_witness :
    ClientSession.deliveredTo 0
        (ClientSession.processAll (ClientSession.callsUpTo 2)
          [⟨some 2, "b"⟩, ⟨some 1, "a"⟩]) =
      [⟨some 1, "a"⟩] :=
  (C1_session_correlation 2 (fun k => if k = 0 then "a" else "b")
    [⟨some 2, "b"⟩, ⟨some 1, "a"⟩] (by decide)).2.1 0 (by decide)

/-- Claim C2 (evidence of the code bug): with one call outstanding, `close()`
leaves that PendingCall in the pending map untouched and delivers no
`SessionClosedError` (or anything else) to its waiter — the waiter hangs,
contrary to the specified contract. -/
theorem C2_close_leaves_call_pending :
    (ClientSession.close (ClientSession.callsUpTo 1)).1.pending = [(1, 0)] ∧
    (ClientSession.close (ClientSession.callsUpTo 1)).2 = [] :=
  ⟨rfl, rfl⟩

/-! ## Theorems: model fallback (C3, C4, C5) -/

/-- Shared scenario: candidates `[A, B, C]`, backend rejects `A` and `B` as
not-found and accepts `C`; starting from an empty exhausted set the call
returns `C`'s result, the exhausted set ends as `[A, B]`, and the attempts
are `[A, B, C]`, each model once. -/
theorem queryFallback_rejectAB_acceptC {α ρ : Type} [DecidableEq α]
    {A B C : α} {r : ρ} {backend : α → Outcome ρ}
    (hAB : A ≠ B) (hAC : A ≠ C) (hBC : B ≠ C)
    (hA : backend A = .notFound) (hB : backend B = .notFound) (hC : backend C = .ok r) :
    queryFallback backend [A, B, C] A [] = (.ok r, [A, B], [A, B, C]) := by
  simp [queryFallback, runAnthropic, dedupFirst, dedupFirstAux, addModel, firstAvail,
    hA, hB, hC, hAB, hAC, hBC, Ne.symm hAB, Ne.symm hAC, Ne.symm hBC]

/-- Shared scenario: same backend, but the query starts from the exhausted
set `[A, B]` carried over from an earlier query: the chosen model `A` is
still attempted once, `B` is skipped, and `C` succeeds. -/
theorem queryFallback_carryover {α ρ : Type} [DecidableEq α]
    {A B C : α} {r : ρ} {backend : α → Outcome ρ}
    (hAB : A ≠ B) (hAC : A ≠ C) (hBC : B ≠ C)
    (hA : backend A = .notFound) (hC : backend C = .ok r) :
    queryFallback backend [A, B, C] A [A, B] = (.ok r, [A, B], [A, C]) := by
  simp [queryFallback, runAnthropic, dedupFirst, dedupFirstAux, addModel, firstAvail,
    hA, hC, hAB, hAC, hBC, Ne.symm hAB, Ne.symm hAC, Ne.symm hBC]

/-- Claim C3: with candidate list `[A, B, C]` (explicit/chosen model first,
then the configured chain) where the backend rejects `A` and `B` as not-found
and accepts `C`, `generate` returns `C`'s result, the exhausted set at query
end is `\x7bA, B\x7d`, and the models attempted are exactly `[A, B, C]` in
order — each candidate at most once. -/
theorem C3_model_fallback {α ρ : Type} [DecidableEq α]
    (A B C : α) (r : ρ) (backend : α → Outcome ρ)
    (hAB : A ≠ B) (hAC : A ≠ C) (hBC : B ≠ C)
    (hA : backend A = .notFound) (hB : backend B = .notFound) (hC : backend C = .ok r) :
    queryFallback backend [A, B, C] A [] = (.ok r, [A, B], [A, B, C]) ∧
    ([A, B, C] : List α).Nodup :=
  ⟨queryFallback_rejectAB_acceptC hAB hAC hBC hA hB hC, by simp [hAB, hAC, hBC]⟩

/-- Witness for C3 at models `0, 1, 2` with result `7`. -/
theorem C3_model_fallback_witness :
    queryFallback (fun m => if m = 2 then Outcome.ok 7 else Outcome.notFound)
        [0, 1, 2] 0 [] = (.ok 7, [0, 1], [0, 1, 2]) :=
  (C3_model_fallback 0 1 2 7 (fun m => if m = 2 then Outcome.ok 7 else Outcome.notFound)
    (by decide) (by decide) (by decide) (by decide) (by decide) (by decide)).1

/-- Claim C4: when the backend rejects every candidate of `[A, B, C]` as
not-found, the call fails with the `All candidate models unavailable` error
listing `[A, B, C]` — exactly the models attempted (the attempt list equals
the exhausted list, so set equality holds a fortiori) — and the interactive
loop catches the error and continues, leaving the session usable. -/
theorem C4_model_exhaustion {α ρ : Type} [DecidableEq α]
    (A B C : α) (backend : α → Outcome ρ)
    (hAB : A ≠ B) (hAC : A ≠ C) (hBC : B ≠ C)
    (hA : backend A = .notFound) (hB : backend B = .notFound) (hC : backend C = .notFound) :
    queryFallback backend [A, B, C] A [] =
      (.allUnavailable [A, B, C], [A, B, C], [A, B, C]) ∧
    (∀ e, (consoleLoopStep (Except.error e)).1 = true) := by
  constructor
  · simp [queryFallback, runAnthropic, dedupFirst, dedupFirstAux, addModel, firstAvail,
      hA, hB, hC, hAB, hAC, hBC, Ne.symm hAB, Ne.symm hAC, Ne.symm hBC]
  · intro e; rfl

/-- Witness for C4 at models `0, 1, 2` with a backend rejecting all. -/
theorem C4_model_exhaustion_witness :
    queryFallback (fun _ : Nat => (Outcome.notFound : Outcome Nat)) [0, 1, 2] 0 [] =
      (.allUnavailable [0, 1, 2], [0, 1, 2], [0, 1, 2]) :=
  (C4_model_exhaustion 0 1 2 (fun _ => Outcome.notFound)
    (by decide) (by decide) (by decide) (by decide) (by decide) (by decide)).1

/-- Counterexample to Claim C5: with models `0, 1, 2` and a backend that
rejects `0` and `1` and accepts `2`, the second query of the session starts
with the non-empty exhausted set `[0, 1]` left by the first query — not the
empty set the claim requires — and its attempt list is `[0, 2]`: model `1`,
exhausted during the first query, is carried into the second query's fallback
decision and skipped. -/
theorem C5_counterexample :
    ((twoQueries (fun m => if m = 2 then Outcome.ok 7 else Outcome.notFound)
        [0, 1, 2] 0).1.2.1 ≠ ([] : List Nat)) ∧
    (twoQueries (fun m => if m = 2 then Outcome.ok 7 else Outcome.notFound)
        [0, 1, 2] 0).2.2.2 = [0, 2] := by
  decide

/-- Claim C5 as amended: the exhausted-model set is session-scoped, not
query-scoped — it starts empty only at session start, the second query
begins with exactly the set the first query ended with, and a model marked
exhausted in an earlier query is excluded from a later query's fallback
rotation (only the query's initially chosen model is re-attempted). -/
theorem C5_session_scoped_exhaustion {α ρ : Type} [DecidableEq α]
    (A B C : α) (r : ρ) (backend : α → Outcome ρ)
    (hAB : A ≠ B) (hAC : A ≠ C) (hBC : B ≠ C)
    (hA : backend A = .notFound) (hB : backend B = .notFound) (hC : backend C = .ok r) :
    (twoQueries backend [A, B, C] A).1.2.1 = [A, B] ∧
    (twoQueries backend [A, B, C] A).2 = (.ok r, [A, B], [A, C]) := by
  have hq1 := queryFallback_rejectAB_acceptC hAB hAC hBC hA hB hC
  have hq2 := queryFallback_carryover hAB hAC hBC hA hC
  constructor
  · simp [twoQueries, hq1]
  · simp [twoQueries, hq1, hq2]

/-- Witness for the amended C5 at models `0, 1, 2`. -/
theorem C5_session_scoped_exhaustion_witness :
    (twoQueries (fun m => if m = 2 then Outcome.ok 7 else Outcome.notFound)
        [0, 1, 2] 0).2 = (.ok 7, [0, 1], [0, 2]) :=
  (C5_session_scoped_exhaustion 0 1 2 7
    (fun m => if m = 2 then Outcome.ok 7 else Outcome.notFound)
    (by decide) (by decide) (by decide) (by decide) (by decide) (by decide)).2

/-! ## Theorems: orchestration loop (C6, C7, C8) -/

theorem processBlocks_used (ct : String → String → Except String ToolContent) :
    ∀ (blocks : List ContentBlock) (st : OrchState) (used : Bool),
      (processBlocks ct blocks st used).2 = (used || blocks.any isToolUse) := by
  intro blocks
  induction blocks with
  | nil => intro st used; simp [processBlocks]
  | cons b rest ih =>
    intro st used
    cases b with
    | text s => simp [processBlocks, isToolUse, ih]
    | otherBlock => simp [processBlocks, isToolUse, ih]
    | toolUse name args =>
      cases hct : ct name args with
      | ok content => simp [processBlocks, hct, isToolUse, ih]
      | error e => simp [processBlocks, hct, isToolUse, ih]

theorem orchLoop_cap (gen : List Turn → Except String (List ContentBlock))
    (ct : String → String → Except String ToolContent)
    (hgen : ∀ msgs, ∃ r, gen msgs = .ok r ∧ r.any isToolUse = true) :
    ∀ (fuel : Nat) (resp : List ContentBlock) (st : OrchState),
      resp.any isToolUse = true →
      ∃ stF, orchLoop gen ct fuel resp st = .ok (stF, fuel) := by
  intro fuel
  induction fuel with
  | zero => intro resp st _; exact ⟨st, rfl⟩
  | succ fuel ih =>
    intro resp st hresp
    have hused : (processBlocks ct resp st false).2 = true := by
      rw [processBlocks_used]; simp [hresp]
    rcases hgen (processBlocks ct resp st false).1.messages with ⟨r2, hr2, hr2t⟩
    rcases ih r2 (processBlocks ct resp st false).1 hr2t with ⟨stF, hF⟩
    refine ⟨stF, ?_⟩
    simp [orchLoop, hused, hr2, hF, Except.map]

/-- Claim C6: against a model that always returns at least one
tool-invocation block, `processQuery` stops after exactly 5 processed rounds
(the hard cap) and returns the accumulated output without raising any error;
and a round whose response carries zero tool-invocation blocks ends the loop
immediately (one round, no further generation), the output being the
accumulated parts joined by newlines. -/
theorem C6_round_cap (gen : List Turn → Except String (List ContentBlock))
    (ct : String → String → Except String ToolContent) (query : String)
    (hgen : ∀ msgs, ∃ r, gen msgs = .ok r ∧ r.any isToolUse = true) :
    roundsOf (processQueryFull gen ct query) = some 5 ∧
    (processQuery gen ct query).isOk = true ∧
    (∀ st rounds, processQueryFull gen ct query = .ok (st, rounds) →
      processQuery gen ct query = .ok (String.intercalate "\n" st.finalParts)) ∧
    (∀ (n : Nat) (resp : List ContentBlock) (st : OrchState),
      resp.any isToolUse = false →
      orchLoop gen ct (n + 1) resp st = .ok ((processBlocks ct resp st false).1, 1)) := by
  rcases hgen [⟨"user", query⟩] with ⟨r0, hr0, hr0t⟩
  rcases orchLoop_cap gen ct hgen 5 r0 ⟨[⟨"user", query⟩], []⟩ hr0t with ⟨stF, hF⟩
  have hfull : processQueryFull gen ct query = .ok (stF, 5) := by
    simp [processQueryFull, hr0, hF]
  refine ⟨?_, ?_, ?_, ?_⟩
  · rw [hfull]; rfl
  · simp [processQuery, hfull, Except.isOk, Except.map, Except.toBool]
  · intro st rounds h
    simp [processQuery, h, Except.map]
  · intro n resp st hresp
    have hused : (processBlocks ct resp st false).2 = false := by
      rw [processBlocks_used]; simp [hresp]
    simp [orchLoop, hused]

/-- Witness for C6: a model that always emits one tool call is cut off at
exactly 5 rounds. -/
theorem C6_round_cap_witness :
    roundsOf (processQueryFull (fun _ => .ok [.toolUse "t" "null"])
      (fun _ _ => .ok .nullContent) "q") = some 5 :=
  (C6_round_cap (fun _ => .ok [.toolUse "t" "null"]) (fun _ _ => .ok .nullContent) "q"
    (fun _ => ⟨[.toolUse "t" "null"], rfl, rfl⟩)).1

/-- Claim C7: a failing tool invocation does not abort the query — the
failure is recorded as visible trace lines in the output accumulator, an
error-describing user-role turn is appended to the Conversation, and the
loop proceeds to the next round (regenerating from the updated
Conversation) instead of raising. -/
theorem C7_tool_failure_recovery (gen : List Turn → Except String (List ContentBlock))
    (ct : String → String → Except String ToolContent) (name args e : String)
    (st : OrchState) (fuel : Nat) (resp2 : List ContentBlock)
    (hct : ct name args = .error e)
    (hgen : gen (st.messages ++ [⟨"user", "Tool " ++ name ++ " error: " ++ e⟩]) = .ok resp2) :
    processBlocks ct [.toolUse name args] st false =
      ({ messages := st.messages ++ [⟨"user", "Tool " ++ name ++ " error: " ++ e⟩],
         finalParts := st.finalParts ++
           ["[Calling tool " ++ name ++ " args=" ++ args ++ "]",
            "[Tool " ++ name ++ " failed: " ++ e ++ "]",
            "[Tool " ++ name ++ " error: " ++ e ++ "]"] }, true) ∧
    orchLoop gen ct (fuel + 1) [.toolUse name args] st =
      (orchLoop gen ct fuel resp2
          { messages := st.messages ++ [⟨"user", "Tool " ++ name ++ " error: " ++ e⟩],
            finalParts := st.finalParts ++
              ["[Calling tool " ++ name ++ " args=" ++ args ++ "]",
               "[Tool " ++ name ++ " failed: " ++ e ++ "]",
               "[Tool " ++ name ++ " error: " ++ e ++ "]"] }).map
        (fun q => (q.1, q.2 + 1)) := by
  have h1 : processBlocks ct [.toolUse name args] st false =
      ({ messages := st.messages ++ [⟨"user", "Tool " ++ name ++ " error: " ++ e⟩],
         finalParts := st.finalParts ++
           ["[Calling tool " ++ name ++ " args=" ++ args ++ "]",
            "[Tool " ++ name ++ " failed: " ++ e ++ "]",
            "[Tool " ++ name ++ " error: " ++ e ++ "]"] }, true) := by
    simp [processBlocks, hct]
  exact ⟨h1, by simp [orchLoop, h1, hgen]⟩

/-- Witness for C7 with a tool that always fails. -/
theorem C7_tool_failure_recovery_witness :
    processBlocks (fun _ _ => .error "boom") [.toolUse "t" "null"] ⟨[], []⟩ false =
      ({ messages := [⟨"user", "Tool " ++ "t" ++ " error: " ++ "boom"⟩],
         finalParts :=
           ["[Calling tool " ++ "t" ++ " args=" ++ "null" ++ "]",
            "[Tool " ++ "t" ++ " failed: " ++ "boom" ++ "]",
            "[Tool " ++ "t" ++ " error: " ++ "boom" ++ "]"] }, true) :=
  (C7_tool_failure_recovery (fun _ => .ok []) (fun _ _ => .error "boom")
    "t" "null" "boom" ⟨[], []⟩ 0 [] rfl rfl).1

/-- Claim C8: for a successful tool result, if the whitespace-collapsed
("flattened") text exceeds 50 characters, the preview line appended to the
output carries the first 50 characters plus the `...` truncation marker; at or
under 50 characters, the flattened text is shown in full, unmodified. -/
theorem C8_preview_truncation (ct : String → String → Except String ToolContent)
    (name args : String) (content : ToolContent) (st : OrchState) (used : Bool)
    (hct : ct name args = .ok content) :
    (50 < (collapseWs (fullTextOf content)).length →
      (processBlocks ct [.toolUse name args] st used).1.finalParts =
        st.finalParts ++
          ["[Calling tool " ++ name ++ " args=" ++ args ++ "]",
           "[Tool " ++ name ++ " result: " ++
             ((collapseWs (fullTextOf content)).take 50 ++ "...") ++ "]"]) ∧
    ((collapseWs (fullTextOf content)).length ≤ 50 →
      (processBlocks ct [.toolUse name args] st used).1.finalParts =
        st.finalParts ++
          ["[Calling tool " ++ name ++ " args=" ++ args ++ "]",
           "[Tool " ++ name ++ " result: " ++ collapseWs (fullTextOf content) ++ "]"]) := by
  constructor
  · intro h
    simp [processBlocks, hct, previewText, h]
  · intro h
    simp [processBlocks, hct, previewText, Nat.not_lt.mpr h]

/-- Witness for C8: a 60-character result is previewed as its first 50
characters plus `...`. -/
theorem C8_preview_truncation_witness :
    (processBlocks
        (fun _ _ => .ok (.jsonContent "xxxxxxxxxxxxxxxxxxxxxxxxxxxxxxxxxxxxxxxxxxxxxxxxxxxxxxxxxxxx"))
        [.toolUse "t" "null"] ⟨[], []⟩ false).1.finalParts =
      [] ++
        ["[Calling tool " ++ "t" ++ " args=" ++ "null" ++ "]",
         "[Tool " ++ "t" ++ " result: " ++
           ((collapseWs (fullTextOf
              (.jsonContent "xxxxxxxxxxxxxxxxxxxxxxxxxxxxxxxxxxxxxxxxxxxxxxxxxxxxxxxxxxxx"))).take 50
             ++ "...") ++ "]"] :=
  (C8_preview_truncation
    (fun _ _ => .ok (.jsonContent "xxxxxxxxxxxxxxxxxxxxxxxxxxxxxxxxxxxxxxxxxxxxxxxxxxxxxxxxxxxx"))
    "t" "null" (.jsonContent "xxxxxxxxxxxxxxxxxxxxxxxxxxxxxxxxxxxxxxxxxxxxxxxxxxxxxxxxxxxx")
    ⟨[], []⟩ false rfl).1 (by decide)

/-! ## Theorems: transport endpoint auto-probe (C9) -/

theorem probeLoop_first (fetch : String → Option FetchResp) (base : String) :
    ∀ (pre : List (String × String)) (cand : String × String)
      (post : List (String × String)) (pr : FetchResp),
      (∀ c2 ∈ pre, probeFails fetch base c2) →
      fetch (base ++ cand.1) = some pr → pr.ok = true →
      probeLoop fetch base (pre ++ cand :: post) = some (cand, pr) := by
  intro pre
  induction pre with
  | nil =>
    intro cand post pr _ hc hok
    simp [probeLoop, hc, hok]
  | cons c2 pre ih =>
    intro cand post pr hpre hc hok
    have h2 := hpre c2 (List.mem_cons_self _ _)
    have hrec := ih cand post pr (fun c hcm => hpre c (List.mem_cons_of_mem _ hcm)) hc hok
    cases hf : fetch (base ++ c2.1) with
    | none => simpa [probeLoop, hf] using hrec
    | some pr2 =>
      have : pr2.ok = false := h2 pr2 hf
      simpa [probeLoop, hf, this] using hrec

theorem probeLoop_none (fetch : String → Option FetchResp) (base : String) :
    ∀ (cands : List (String × String)),
      (∀ c ∈ cands, probeFails fetch base c) →
      probeLoop fetch base cands = none := by
  intro cands
  induction cands with
  | nil => intro _; rfl
  | cons c cs ih =>
    intro hall
    cases hf : fetch (base ++ c.1) with
    | none => simpa [probeLoop, hf] using ih (fun c2 h2 => hall c2 (List.mem_cons_of_mem _ h2))
    | some pr =>
      have : pr.ok = false := hall c (List.mem_cons_self _ _) pr hf
      simpa [probeLoop, hf, this] using ih (fun c2 h2 => hall c2 (List.mem_cons_of_mem _ h2))

/-- Counterexample to Claim C9: with every endpoint answering 404 (not ok)
with an empty body — so the primary read endpoint is not-found and no
alternate succeeds — streaming does not fail with a descriptive error: it
completes silently yielding nothing (`.ok []`). -/
theorem C9_counterexample :
    streamRun (fun _ => some ⟨404, false, some []⟩) "http://h" "/read" "/write" =
      .ok [] := by
  rfl

/-- Claim C9 as amended: if the primary read endpoint returns not-found, the
client tries each candidate pair of the fixed probe list in order and adopts
the first that responds successfully; if none succeeds, the client falls
back to streaming the primary not-found response itself — it fails with the
descriptive `No response body for streaming` error only when that response
has no body, and otherwise silently yields whatever parses from that body
(typically nothing). -/
theorem C9_endpoint_probe (fetch : String → Option FetchResp)
    (base readPath writePath : String) (res : FetchResp)
    (hprim : fetch (base ++ readPath) = some res) (h404 : res.status = 404) :
    (∀ (pre : List (String × String)) (cand : String × String)
       (post : List (String × String)) (pr : FetchResp),
       probeCandidates = pre ++ cand :: post →
       (∀ c2 ∈ pre, probeFails fetch base c2) →
       fetch (base ++ cand.1) = some pr → pr.ok = true →
       streamSetup fetch base readPath writePath = .ok (cand, pr)) ∧
    ((∀ c ∈ probeCandidates, probeFails fetch base c) →
       (res.body = none →
         streamRun fetch base readPath writePath =
           .error "No response body for streaming") ∧
       (∀ lines, res.body = some lines →
         streamRun fetch base readPath writePath = .ok (parseBodyLines lines))) := by
  constructor
  · intro pre cand post pr hsplit hpre hc hok
    have hpl : probeLoop fetch base probeCandidates = some (cand, pr) := by
      rw [hsplit]; exact probeLoop_first fetch base pre cand post pr hpre hc hok
    simp [streamSetup, hprim, h404, hpl]
  · intro hfail
    have hpl : probeLoop fetch base probeCandidates = none :=
      probeLoop_none fetch base probeCandidates hfail
    constructor
    · intro hb
      simp [streamRun, streamSetup, hprim, h404, hpl, hb]
    · intro lines hb
      simp [streamRun, streamSetup, hprim, h404, hpl, hb]

/-- Witness for the amended C9: the primary `/read` returns 404, and the
second probe pair `/stream/read`,`/stream/write` is the first to respond
successfully, so it is adopted. -/
theorem C9_endpoint_probe_witness :
    streamSetup
        (fun u => if u = "http://h/stream/read"
          then some (FetchResp.mk 200 true (some ["m"]))
          else some (FetchResp.mk 404 false (some [])))
        "http://h" "/read" "/write" =
      .ok (("/stream/read", "/stream/write"), FetchResp.mk 200 true (some ["m"])) :=
  (C9_endpoint_probe
      (fun u => if u = "http://h/stream/read"
        then some (FetchResp.mk 200 true (some ["m"]))
        else some (FetchResp.mk 404 false (some [])))
      "http://h" "/read" "/write" (FetchResp.mk 404 false (some [])) rfl rfl).1
    [("/read", "/write")] ("/stream/read", "/stream/write") [("/events", "/send")]
    (FetchResp.mk 200 true (some ["m"])) rfl
    (by
      intro c2 hc2 pr hpr
      rcases List.mem_singleton.mp hc2 with rfl
      have hval : (fun u => if u = "http://h/stream/read"
            then some (FetchResp.mk 200 true (some ["m"]))
            else some (FetchResp.mk 404 false (some [])))
          ("http://h" ++ ("/read", "/write").1) = some (FetchResp.mk 404 false (some [])) := by
        decide
      rw [hval] at hpr
      injection hpr with h
      rw [← h])
    rfl rfl

/-! ## Theorems: URL normalization (C10) -/

theorem stripTrailingSlash_of_ne {l : List Char} (h : l.getLast? ≠ some '/') :
    stripTrailingSlash l = l := by
  rw [stripTrailingSlash, if_neg h]

theorem stripTrailingSlash_concat (l : List Char) :
    stripTrailingSlash (l ++ ['/']) = l := by
  rw [stripTrailingSlash, if_pos (List.getLast?_concat l), List.dropLast_concat]

theorem schemeSepSplit_sound : ∀ (s : List Char) (p : List Char × List Char),
    schemeSepSplit s = some p → s = p.1 ++ ':' :: '/' :: '/' :: p.2 := by
  intro s
  induction s with
  | nil => intro p h; exact absurd h (by simp [schemeSepSplit])
  | cons c rest ih =>
    intro p h
    by_cases htake : (c :: rest).take 3 = [':', '/', '/']
    · rw [schemeSepSplit, if_pos htake] at h
      obtain rfl := Option.some.inj h
      simp only [List.take_succ_cons] at htake
      obtain ⟨rfl, htake2⟩ : c = ':' ∧ rest.take 2 = ['/', '/'] := by
        have h1 := congrArg (fun l => l.head?) htake
        have h2 := congrArg (fun l => l.tail) htake
        simp at h1 h2
        exact ⟨h1, h2⟩
      have hrest : rest = '/' :: '/' :: rest.drop 2 := by
        conv_lhs => rw [← List.take_append_drop 2 rest]
        rw [htake2]
        rfl
      simp only [List.nil_append]
      conv_lhs => rw [hrest]
    · rw [schemeSepSplit, if_neg htake] at h
      rcases Option.map_eq_some'.mp h with ⟨q, hq, hpq⟩
      rw [← hpq]
      simp only
      rw [ih q hq]
      rfl

theorem take3_stable (c : Char) (a X : List Char) :
    (c :: (a ++ ':' :: '/' :: '/' :: X)).take 3 =
      (c :: (a ++ [':', '/', '/'])).take 3 := by
  cases a with
  | nil => rfl
  | cons x a2 =>
    cases a2 with
    | nil => rfl
    | cons y a3 => simp [List.take_succ_cons]

theorem schemeSepSplit_roundtrip : ∀ (s a b : List Char),
    schemeSepSplit s = some (a, b) →
    ∀ d, schemeSepSplit (a ++ ':' :: '/' :: '/' :: d) = some (a, d) := by
  intro s
  induction s with
  | nil => intro a b h; exact absurd h (by simp [schemeSepSplit])
  | cons c rest ih =>
    intro a b h d
    by_cases htake : (c :: rest).take 3 = [':', '/', '/']
    · rw [schemeSepSplit, if_pos htake] at h
      obtain ⟨rfl, rfl⟩ : a = [] ∧ b = rest.drop 2 := by
        have := Option.some.inj h
        exact ⟨(congrArg Prod.fst this).symm, (congrArg Prod.snd this).symm⟩
      rw [List.nil_append, schemeSepSplit, if_pos (by rfl)]
      rfl
    · rw [schemeSepSplit, if_neg htake] at h
      rcases Option.map_eq_some'.mp h with ⟨q, hq, hpq⟩
      obtain ⟨rfl, rfl⟩ : a = c :: q.1 ∧ b = q.2 := by
        exact ⟨(congrArg Prod.fst hpq).symm, (congrArg Prod.snd hpq).symm⟩
      have hsound := schemeSepSplit_sound rest q hq
      have hcond : ¬ ((c :: q.1) ++ ':' :: '/' :: '/' :: d).take 3 = [':', '/', '/'] := by
        have e1 : ((c :: q.1) ++ ':' :: '/' :: '/' :: d).take 3 =
            (c :: (q.1 ++ [':', '/', '/'])).take 3 := by
          rw [List.cons_append]
          exact take3_stable c q.1 d
        have e2 : (c :: rest).take 3 = (c :: (q.1 ++ [':', '/', '/'])).take 3 := by
          rw [hsound]
          exact take3_stable c q.1 q.2
        rw [e1, ← e2]
        exact htake
      rw [List.cons_append, schemeSepSplit, if_neg (by rw [← List.cons_append]; exact hcond)]
      rw [ih q.1 q.2 (by rw [← hq]) d]
      rfl

theorem takeWhile_append_all (p : Char → Bool) :
    ∀ (a b : List Char), (∀ c ∈ a, p c = true) →
      (a ++ b).takeWhile p = a ++ b.takeWhile p := by
  intro a
  induction a with
  | nil => intro b _; rfl
  | cons x a2 ih =>
    intro b h
    have hx : p x = true := h x (List.mem_cons_self _ _)
    simp only [List.cons_append, List.takeWhile_cons, hx, if_true]
    rw [ih b (fun c hc => h c (List.mem_cons_of_mem _ hc))]

theorem dropWhile_append_all (p : Char → Bool) :
    ∀ (a b : List Char), (∀ c ∈ a, p c = true) →
      (a ++ b).dropWhile p = b.dropWhile p := by
  intro a
  induction a with
  | nil => intro b _; rfl
  | cons x a2 ih =>
    intro b h
    have hx : p x = true := h x (List.mem_cons_self _ _)
    simp only [List.cons_append, List.dropWhile_cons, hx, if_true]
    exact ih b (fun c hc => h c (List.mem_cons_of_mem _ hc))

theorem dropWhile_head_not (p : Char → Bool) :
    ∀ (l : List Char) {c : Char} {t : List Char},
      l.dropWhile p = c :: t → p c = false := by
  intro l
  induction l with
  | nil => intro c t h; exact absurd h (by simp)
  | cons x l2 ih =>
    intro c t h
    by_cases hx : p x = true
    · rw [List.dropWhile_cons, if_pos hx] at h
      exact ih h
    · rw [List.dropWhile_cons, if_neg hx] at h
      obtain rfl : x = c := (List.cons.injEq _ _ _ _ ▸ h).1
      exact Bool.eq_false_iff.mpr hx

theorem collapseAux_cons_slash_true (rest : List Char) :
    collapseAux true ('/' :: rest) = collapseAux true rest := by
  simp [collapseAux]

theorem collapseAux_cons_slash_false (rest : List Char) :
    collapseAux false ('/' :: rest) = '/' :: collapseAux true rest := by
  simp [collapseAux]

theorem collapseAux_cons_ne {c : Char} (h : c ≠ '/') (b : Bool) (rest : List Char) :
    collapseAux b (c :: rest) = c :: collapseAux false rest := by
  simp [collapseAux, h]

theorem collapseAux_append : ∀ (y z : List Char) (b : Bool),
    collapseAux b (y ++ z) =
      collapseAux b y ++ collapseAux (y.foldl (fun _ c => decide (c = '/')) b) z := by
  intro y
  induction y with
  | nil => intro z b; simp [collapseAux]
  | cons c y2 ih =>
    intro z b
    by_cases hc : c = '/'
    · subst hc
      cases b with
      | true =>
        rw [List.cons_append, collapseAux_cons_slash_true, collapseAux_cons_slash_true,
          ih z true]
        simp
      | false =>
        rw [List.cons_append, collapseAux_cons_slash_false, collapseAux_cons_slash_false,
          ih z true]
        simp
    · rw [List.cons_append, collapseAux_cons_ne hc, collapseAux_cons_ne hc, ih z false]
      simp [hc]

theorem foldl_flag_false {y : List Char} (h : y.getLast? ≠ some '/') :
    y.foldl (fun _ c => decide (c = '/')) false = false := by
  rcases List.eq_nil_or_concat y with rfl | ⟨L, a, rfl⟩
  · rfl
  · rw [List.concat_eq_append] at h ⊢
    have ha : a ≠ '/' := by
      intro ha2
      exact h (by rw [ha2]; exact List.getLast?_concat L)
    rw [List.foldl_append]
    simp [ha]

theorem collapseAux_true_head {l : List Char} (h : l.head? ≠ some '/') :
    collapseAux true l = collapseAux false l := by
  cases l with
  | nil => rfl
  | cons c rest =>
    have hc : c ≠ '/' := by
      intro hc2
      exact h (by rw [hc2]; rfl)
    simp [collapseAux, hc]

theorem collapseAux_noDS : ∀ (l : List Char),
    (∀ b, NoDS (collapseAux b l)) ∧ (collapseAux true l).head? ≠ some '/' := by
  intro l
  induction l with
  | nil => exact ⟨fun _ => List.chain'_nil, by simp [collapseAux]⟩
  | cons c rest ih =>
    constructor
    · intro b
      by_cases hc : c = '/'
      · subst hc
        cases b with
        | true => rw [collapseAux_cons_slash_true]; exact ih.1 true
        | false =>
          rw [collapseAux_cons_slash_false, NoDS, List.chain'_cons']
          refine ⟨?_, ih.1 true⟩
          intro y hy hcon
          exact ih.2 (by rw [hy, hcon.2])
      · rw [collapseAux_cons_ne hc, NoDS, List.chain'_cons']
        refine ⟨?_, ih.1 false⟩
        intro y _ hcon
        exact hc hcon.1
    · by_cases hc : c = '/'
      · subst hc
        rw [collapseAux_cons_slash_true]
        exact ih.2
      · rw [collapseAux_cons_ne hc]
        simp [hc]

theorem collapseAux_eq_self : ∀ (l : List Char), NoDS l →
    collapseAux false l = l ∧ (l.head? ≠ some '/' → collapseAux true l = l) := by
  intro l
  induction l with
  | nil => exact fun _ => ⟨rfl, fun _ => rfl⟩
  | cons c rest ih =>
    intro h
    rw [NoDS, List.chain'_cons'] at h
    obtain ⟨hhead, htail⟩ := h
    constructor
    · by_cases hc : c = '/'
      · subst hc
        rw [collapseAux_cons_slash_false]
        have hresthead : rest.head? ≠ some '/' := by
          intro hr
          exact hhead '/' hr ⟨rfl, rfl⟩
        rw [(ih htail).2 hresthead]
      · rw [collapseAux_cons_ne hc]
        rw [(ih htail).1]
    · intro hch
      have hc : c ≠ '/' := by
        intro hc2
        exact hch (by rw [hc2]; rfl)
      rw [collapseAux_cons_ne hc]
      rw [(ih htail).1]

theorem collapseAux_head : ∀ (l : List Char), (collapseAux false l).head? = l.head? := by
  intro l
  cases l with
  | nil => rfl
  | cons c rest =>
    by_cases hc : c = '/'
    · subst hc; rw [collapseAux_cons_slash_false]; rfl
    · rw [collapseAux_cons_ne hc]; rfl

theorem collapseAux_single {a : Char} (h : a ≠ '/') (b : Bool) :
    collapseAux b [a] = [a] := by
  rw [collapseAux_cons_ne h]
  rfl

theorem collapseAux_last_ne : ∀ (l : List Char), l.getLast? ≠ some '/' →
    (collapseAux false l).getLast? ≠ some '/' := by
  intro l h
  rcases List.eq_nil_or_concat l with rfl | ⟨L, a, rfl⟩
  · simp [collapseAux]
  · rw [List.concat_eq_append] at h ⊢
    have ha : a ≠ '/' := by
      intro ha2
      exact h (by rw [ha2]; exact List.getLast?_concat L)
    rw [collapseAux_append L [a] false, collapseAux_single ha]
    rw [List.getLast?_concat]
    simp [ha]

theorem getLast?_append_ne {l1 l2 : List Char} (h : l2 ≠ []) :
    (l1 ++ l2).getLast? = l2.getLast? := by
  rw [List.getLast?_append]
  cases hg : l2.getLast? with
  | none => exact absurd (List.getLast?_eq_none_iff.mp hg) h
  | some a => rfl

theorem mountNorm_facts (m : List Char)
    (hm : NoDS (if m.take 1 = ['/'] then m else '/' :: m)) :
    mountNorm m = ['/'] ∨
      (mountNorm m ≠ [] ∧ (mountNorm m).head? = some '/' ∧
       (mountNorm m).getLast? ≠ some '/' ∧ NoDS (mountNorm m)) := by
  set mp1 := (if m.take 1 = ['/'] then m else '/' :: m) with hmp1
  have hmp1h : mp1.head? = some '/' := by
    rw [hmp1]
    by_cases ht : m.take 1 = ['/']
    · rw [if_pos ht]
      cases m with
      | nil => exact absurd ht (by simp)
      | cons c t =>
        have hc : c = '/' := by simpa using ht
        rw [hc]
        rfl
    · rw [if_neg ht]
      rfl
  have hmp1ne : mp1 ≠ [] := by
    intro h
    rw [h] at hmp1h
    exact absurd hmp1h (by simp)
  rw [mountNorm, ← hmp1]
  by_cases h1 : mp1 = ['/']
  · left
    rw [if_pos h1]
  · right
    rw [if_neg h1]
    by_cases h2 : mp1.getLast? = some '/'
    · have hglast : mp1.getLast hmp1ne = '/' := by
        have h3 := List.getLast?_eq_getLast mp1 hmp1ne
        rw [h3] at h2
        exact Option.some.inj h2
      have hdecomp : mp1.dropLast ++ ['/'] = mp1 := by
        have h3 := List.dropLast_append_getLast hmp1ne
        rw [hglast] at h3
        exact h3
      have hstrip : stripTrailingSlash mp1 = mp1.dropLast := by
        rw [stripTrailingSlash, if_pos h2]
      rw [hstrip]
      have hdlne : mp1.dropLast ≠ [] := by
        intro h4
        rw [h4, List.nil_append] at hdecomp
        exact h1 hdecomp.symm
      have hm2 : NoDS (mp1.dropLast ++ ['/']) := by
        rw [hdecomp]
        exact hm
      have hap := List.chain'_append.mp hm2
      refine ⟨hdlne, ?_, ?_, hap.1⟩
      · cases hdl : mp1.dropLast with
        | nil => exact absurd hdl hdlne
        | cons d ds =>
          rw [hdl] at hdecomp
          have h5 : mp1.head? = some d := by
            rw [← hdecomp]
            rfl
          rw [hmp1h] at h5
          rw [← Option.some.inj h5]
          rfl
      · intro hg
        exact (hap.2.2 '/' (Option.mem_def.mpr hg) '/' (Option.mem_def.mpr rfl)) ⟨rfl, rfl⟩
    · rw [stripTrailingSlash_of_ne h2]
      exact ⟨hmp1ne, hmp1h, h2, hm⟩

theorem normalizeUrl_strip (b m : List Char)
    (h : stripTrailingSlash (stripTrailingSlash b) = stripTrailingSlash b) :
    normalizeUrl b m = normalizeUrl (stripTrailingSlash b) m := by
  simp only [normalizeUrl, h]

theorem normalizeUrl_eq_of_parse (b m σ2 h2 q2 : List Char)
    (hb : stripTrailingSlash b = b) (hp : parseUrl b = some ⟨σ2, h2, q2⟩)
    (hq : q2.getLast? ≠ some '/') :
    normalizeUrl b m =
      if q2 = mountNorm m then b
      else if mountNorm m <:+ q2 then b
      else stripTrailingSlash
        (urlToString ⟨σ2, h2, collapseAux false (q2 ++ mountNorm m)⟩) := by
  simp only [normalizeUrl, hb, hp, collapseSlashes, stripTrailingSlash_of_ne hq]

theorem normalizeUrl_idem_aux (σ host path m : List Char)
    (hσ : σ ≠ []) (hhost : ¬ host = [])
    (hhostp : ∀ c ∈ host, (c != '/') = true)
    (hsplit : ∀ d, schemeSepSplit (σ ++ ':' :: '/' :: '/' :: d) = some (σ, d))
    (hpathh : path = [] ∨ path.head? = some '/')
    (hpathl : path.getLast? ≠ some '/')
    (hmp : NoDS (if m.take 1 = ['/'] then m else '/' :: m)) :
    normalizeUrl (normalizeUrl (σ ++ ':' :: '/' :: '/' :: (host ++ path)) m) m =
      normalizeUrl (σ ++ ':' :: '/' :: '/' :: (host ++ path)) m := by
  have hhostl : host.getLast? ≠ some '/' := by
    intro hg
    rcases List.eq_nil_or_concat host with rfl | ⟨L, a, rfl⟩
    · simp at hg
    · rw [List.concat_eq_append, List.getLast?_concat] at hg
      have ha : a = '/' := Option.some.inj hg
      have hmem : a ∈ L ++ [a] := List.mem_append_right L (by simp)
      have := hhostp a (by rw [List.concat_eq_append] at *; exact hmem)
      rw [ha] at this
      simp at this
  have hlast_rebuilt : ∀ q : List Char, q.getLast? ≠ some '/' →
      (σ ++ ':' :: '/' :: '/' :: (host ++ q)).getLast? ≠ some '/' := by
    intro q hql
    have hhq : host ++ q ≠ [] := by
      intro h0
      exact hhost (List.append_eq_nil.mp h0).1
    have e1 : σ ++ ':' :: '/' :: '/' :: (host ++ q) =
        (σ ++ [':', '/', '/']) ++ (host ++ q) := by simp
    rw [e1, getLast?_append_ne hhq]
    by_cases hq0 : q = []
    · rw [hq0]
      simpa using hhostl
    · rw [getLast?_append_ne hq0]
      exact hql
  have hstrip_rebuilt : ∀ q : List Char, q.getLast? ≠ some '/' →
      stripTrailingSlash (σ ++ ':' :: '/' :: '/' :: (host ++ q)) =
        σ ++ ':' :: '/' :: '/' :: (host ++ q) :=
    fun q hql => stripTrailingSlash_of_ne (hlast_rebuilt q hql)
  have hparse2 : ∀ q : List Char, (q = [] ∨ q.head? = some '/') →
      parseUrl (σ ++ ':' :: '/' :: '/' :: (host ++ q)) = some ⟨σ, host, q⟩ := by
    intro q hq
    have htw : (host ++ q).takeWhile (fun c => c != '/') = host := by
      rw [takeWhile_append_all _ host q hhostp]
      rcases hq with rfl | hq
      · simp
      · cases q with
        | nil => simp
        | cons c t =>
          have hc : c = '/' := by simpa using hq
          rw [hc]
          simp [List.takeWhile_cons]
    have hdw : (host ++ q).dropWhile (fun c => c != '/') = q := by
      rw [dropWhile_append_all _ host q hhostp]
      rcases hq with rfl | hq
      · rfl
      · cases q with
        | nil => rfl
        | cons c t =>
          have hc : c = '/' := by simpa using hq
          rw [hc]
          simp [List.dropWhile_cons]
    simp only [parseUrl, hsplit (host ++ q), htw, hdw]
    rw [if_neg hσ, if_neg hhost]
  have hsplit_collapse : collapseAux false (path ++ mountNorm m) =
      collapseAux false path ++ collapseAux false (mountNorm m) := by
    rw [collapseAux_append, foldl_flag_false hpathl]
  have hb0 := hstrip_rebuilt path hpathl
  have hp0 := hparse2 path hpathh
  rw [normalizeUrl_eq_of_parse _ m σ host path hb0 hp0 hpathl]
  by_cases hc1 : path = mountNorm m
  · rw [if_pos hc1, normalizeUrl_eq_of_parse _ m σ host path hb0 hp0 hpathl, if_pos hc1]
  · rw [if_neg hc1]
    by_cases hc2 : mountNorm m <:+ path
    · rw [if_pos hc2, normalizeUrl_eq_of_parse _ m σ host path hb0 hp0 hpathl,
        if_neg hc1, if_pos hc2]
    · rw [if_neg hc2]
      have hKl : (collapseAux false path).getLast? ≠ some '/' :=
        collapseAux_last_ne path hpathl
      have hKh : collapseAux false path = [] ∨
          (collapseAux false path).head? = some '/' := by
        rcases hpathh with rfl | hh
        · left; rfl
        · right; rw [collapseAux_head]; exact hh
      have hKnods : NoDS (collapseAux false path) := (collapseAux_noDS path).1 false
      have hKidem : collapseAux false (collapseAux false path) = collapseAux false path :=
        (collapseAux_eq_self _ hKnods).1
      rcases mountNorm_facts m hmp with hroot | ⟨hmpne, hmph, hmpl, hmpnods⟩
      · -- root mount path
        have hcol : collapseAux false (mountNorm m) = ['/'] := by rw [hroot]; rfl
        have hnew : collapseAux false (path ++ mountNorm m) =
            collapseAux false path ++ ['/'] := by
          rw [hsplit_collapse, hcol]
        have hurl : ∀ X : List Char, urlToString ⟨σ, host, X ++ ['/']⟩ =
            (σ ++ ':' :: '/' :: '/' :: (host ++ X)) ++ ['/'] := by
          intro X
          simp [urlToString]
        rw [hnew, hurl, stripTrailingSlash_concat]
        have hb2 := hstrip_rebuilt _ hKl
        have hp2 := hparse2 _ hKh
        rw [normalizeUrl_eq_of_parse _ m σ host (collapseAux false path) hb2 hp2 hKl]
        have hK1 : ¬ (collapseAux false path = mountNorm m) := by
          rw [hroot]
          intro hk
          rw [hk] at hKl
          exact hKl rfl
        have hK2 : ¬ (mountNorm m <:+ collapseAux false path) := by
          rw [hroot]
          rintro ⟨t, ht⟩
          rw [← ht] at hKl
          exact hKl (List.getLast?_concat t)
        rw [if_neg hK1, if_neg hK2]
        have h2c : collapseAux false (collapseAux false path ++ mountNorm m) =
            collapseAux false path ++ ['/'] := by
          rw [collapseAux_append, foldl_flag_false hKl, hroot, hKidem]
          rfl
        rw [h2c, hurl, stripTrailingSlash_concat]
      · -- non-root mount path
        have hmpc : collapseAux false (mountNorm m) = mountNorm m :=
          (collapseAux_eq_self _ hmpnods).1
        have hnew : collapseAux false (path ++ mountNorm m) =
            collapseAux false path ++ mountNorm m := by
          rw [hsplit_collapse, hmpc]
        have hnpl : (collapseAux false path ++ mountNorm m).getLast? ≠ some '/' := by
          rw [getLast?_append_ne hmpne]
          exact hmpl
        have hnph : (collapseAux false path ++ mountNorm m) = [] ∨
            (collapseAux false path ++ mountNorm m).head? = some '/' := by
          right
          cases hK0 : collapseAux false path with
          | nil => rw [List.nil_append]; exact hmph
          | cons k ks =>
            rw [List.cons_append]
            have hheadk : path.head? = some k := by
              rw [← collapseAux_head path, hK0]
              rfl
            rcases hpathh with rfl | hh
            · exact absurd hK0 (by simp [collapseAux])
            · rw [hh] at hheadk
              rw [← Option.some.inj hheadk]
              rfl
        rw [hnew]
        have hr := hstrip_rebuilt _ hnpl
        rw [show urlToString ⟨σ, host, collapseAux false path ++ mountNorm m⟩ =
            σ ++ ':' :: '/' :: '/' :: (host ++ (collapseAux false path ++ mountNorm m)) from rfl,
          hr]
        have hp2 := hparse2 _ hnph
        rw [normalizeUrl_eq_of_parse _ m σ host (collapseAux false path ++ mountNorm m)
          hr hp2 hnpl]
        by_cases hq1 : collapseAux false path ++ mountNorm m = mountNorm m
        · rw [if_pos hq1]
        · rw [if_neg hq1,
            if_pos (show mountNorm m <:+ collapseAux false path ++ mountNorm m from
              ⟨collapseAux false path, rfl⟩)]

/-- Counterexample to Claim C10: `normalizeUrl` is not idempotent in its
mount path for every input. (1) With the non-URL base `notaurl`, the first
application returns `notaurl/mcp` and the second appends the mount path
again: `notaurl/mcp/mcp`. (2) With base `http://x` and mount path `/a//b`,
slash collapsing makes the appended path `/a/b`, which the second
application does not recognize as ending in `/a//b`, so it appends again.
(3) With base `http://h/mcp//`, the trimmed base still ends in `/`, and the
second application strips that slash, changing the result. -/
theorem C10_counterexample :
    (normalizeUrl (normalizeUrl "notaurl".toList "/mcp".toList) "/mcp".toList ≠
      normalizeUrl "notaurl".toList "/mcp".toList) ∧
    (normalizeUrl (normalizeUrl "http://x".toList "/a//b".toList) "/a//b".toList ≠
      normalizeUrl "http://x".toList "/a//b".toList) ∧
    (normalizeUrl (normalizeUrl "http://h/mcp//".toList "/mcp".toList) "/mcp".toList ≠
      normalizeUrl "http://h/mcp//".toList "/mcp".toList) := by
  decide

/-- Claim C10 as amended: `normalizeUrl` is idempotent in its mount path for
every base URL that parses as `scheme://host…` (after trimming one trailing
slash) and whose trimmed form does not still end in `/` (i.e. the base does
not end in `//`), and every mount path whose slash-prefixed form contains no
empty segment (`//`): a second application returns its input unchanged, so
the mount path segment is appended at most once. -/
theorem C10_normalizeUrl_idempotent (baseUrl mountPath : List Char) (u : ParsedUrl)
    (hparse : parseUrl (stripTrailingSlash baseUrl) = some u)
    (hbase : (stripTrailingSlash baseUrl).getLast? ≠ some '/')
    (hmp : NoDS (if mountPath.take 1 = ['/'] then mountPath else '/' :: mountPath)) :
    normalizeUrl (normalizeUrl baseUrl mountPath) mountPath =
      normalizeUrl baseUrl mountPath := by
  have hstrip2 : stripTrailingSlash (stripTrailingSlash baseUrl) = stripTrailingSlash baseUrl :=
    stripTrailingSlash_of_ne hbase
  rw [normalizeUrl_strip baseUrl mountPath hstrip2]
  cases hss : schemeSepSplit (stripTrailingSlash baseUrl) with
  | none =>
    simp only [parseUrl, hss] at hparse
    exact absurd hparse (by simp)
  | some p =>
    simp only [parseUrl, hss] at hparse
    by_cases hσ : p.1 = []
    · rw [if_pos hσ] at hparse
      exact absurd hparse (by simp)
    rw [if_neg hσ] at hparse
    by_cases hh : p.2.takeWhile (fun c => c != '/') = []
    · rw [if_pos hh] at hparse
      exact absurd hparse (by simp)
    rw [if_neg hh] at hparse
    have hsound := schemeSepSplit_sound _ p hss
    have hsplitR : ∀ d, schemeSepSplit (p.1 ++ ':' :: '/' :: '/' :: d) = some (p.1, d) :=
      schemeSepSplit_roundtrip _ p.1 p.2 (by rw [hss])
    have hrest : p.2 = p.2.takeWhile (fun c => c != '/') ++ p.2.dropWhile (fun c => c != '/') :=
      (List.takeWhile_append_dropWhile _ _).symm
    have hhostp : ∀ c ∈ p.2.takeWhile (fun c => c != '/'), (c != '/') = true :=
      fun x hx => @List.mem_takeWhile_imp Char (fun c => c != '/') p.2 x hx
    have hpathh : p.2.dropWhile (fun c => c != '/') = [] ∨
        (p.2.dropWhile (fun c => c != '/')).head? = some '/' := by
      cases hdw : p.2.dropWhile (fun c => c != '/') with
      | nil => exact Or.inl rfl
      | cons c t =>
        right
        have hpc := dropWhile_head_not _ p.2 hdw
        have hc : c = '/' := by simpa using hpc
        rw [hc]
        rfl
    have hshape : stripTrailingSlash baseUrl =
        p.1 ++ ':' :: '/' :: '/' ::
          (p.2.takeWhile (fun c => c != '/') ++ p.2.dropWhile (fun c => c != '/')) := by
      rw [hsound]
      rw [← hrest]
    have hpathl : (p.2.dropWhile (fun c => c != '/')).getLast? ≠ some '/' := by
      intro hgl
      apply hbase
      rw [hshape]
      have hdwne : p.2.dropWhile (fun c => c != '/') ≠ [] := by
        intro h0
        rw [h0] at hgl
        exact absurd hgl (by simp)
      have e1 : p.1 ++ ':' :: '/' :: '/' ::
          (p.2.takeWhile (fun c => c != '/') ++ p.2.dropWhile (fun c => c != '/')) =
          (p.1 ++ [':', '/', '/'] ++ p.2.takeWhile (fun c => c != '/')) ++
            p.2.dropWhile (fun c => c != '/') := by
        simp
      rw [e1, getLast?_append_ne hdwne]
      exact hgl
    rw [hshape]
    exact normalizeUrl_idem_aux p.1 (p.2.takeWhile (fun c => c != '/'))
      (p.2.dropWhile (fun c => c != '/')) mountPath hσ hh hhostp hsplitR hpathh hpathl hmp

/-- Witness for the amended C10 at `http://h` and `/mcp`. -/
theorem C10_normalizeUrl_idempotent_witness :
    normalizeUrl (normalizeUrl "http://h".toList "/mcp".toList) "/mcp".toList =
      normalizeUrl "http://h".toList "/mcp".toList :=
  C10_normalizeUrl_idempotent "http://h".toList "/mcp".toList
    ⟨"http".toList, "h".toList, []⟩ (by decide) (by decide) (by decide)

end PbixClient
